import Mathlib

/-!
Verification development for the retrieval backend (news RAG pipeline).

The source is JavaScript; the embedding below models it shallowly:
JS strings are `List Char`, JS numbers holding integers/timestamps are `Nat`,
embedding scalars are `ℚ` (only the literal `0` matters to any property),
and real-vector arithmetic in the similarity helper is over `ℝ`.
Asynchronous provider calls (axios) are modelled as a deterministic oracle:
`some items` for a 2xx response with a well-formed body, `none` for a thrown
error or a malformed body (both land in the same `catch` in the source).
-/

namespace Backend

/-- a JS string, modelled as its character list. -/
abbrev Text := List Char

/- ### EmbeddingsService (src/services/embeddings.js)

Constructor constants: `maxRetries = 3`, `retryDelay = 1000`, `batchSize = 20`;
the expected dimension constant is `768`. They are literals in the source. -/

def maxRetries : Nat := 3

def retryDelay : Nat := 1000

def batchSize : Nat := 20

def embeddingDim : Nat := 768

/-- one item of a well-formed provider response body: `{embedding, index}`. -/
structure RawItem where
  embedding : List ℚ
  index : Nat
deriving DecidableEq

/-- the record shape produced by the service. Success records carry no
`failed` field in JS (undefined, falsy); modelled as `failed = false`. -/
structure EmbeddingRecord where
  embedding : List ℚ
  index : Nat
  failed : Bool
deriving DecidableEq

/-- the embedding provider as an oracle: for a batch of texts and a retry
attempt number, either a well-formed response body or a failure. -/
abbrev Provider := List Text → Nat → Option (List RawItem)

/-- value-plus-effect result of one `generateBatchEmbeddings` call:
the records returned, the number of provider attempts made, and the
backoff delays awaited between consecutive attempts (in ms). -/
structure BatchResult where
  records : List EmbeddingRecord
  attempts : Nat
  delays : List Nat
deriving DecidableEq

/-- `EmbeddingsService.generateBatchEmbeddings(texts, retryCount)`.
On a well-formed response, map items to records; on failure, retry while
`retryCount < maxRetries` after a delay of `retryDelay * 2^retryCount`;
past the ceiling, return one zero-filled failed record per input text
(`texts.map((_, index) => ...)` reads only the index, embedded as a map
over `List.range texts.length`). -/
def generateBatchEmbeddings (provider : Provider) (texts : List Text)
    (retryCount : Nat) : BatchResult :=
  match provider texts retryCount with
  | some items =>
      ⟨items.map (fun it => ⟨it.embedding, it.index, false⟩), 1, []⟩
  | none =>
      if h : retryCount < maxRetries then
        let r := generateBatchEmbeddings provider texts (retryCount + 1)
        ⟨r.records, r.attempts + 1, retryDelay * 2 ^ retryCount :: r.delays⟩
      else
        ⟨(List.range texts.length).map
            (fun i => ⟨List.replicate embeddingDim 0, i, true⟩), 1, []⟩
termination_by maxRetries - retryCount

/-- the batch loop inside `generateEmbeddings`: slice off `batchSize` texts,
process them, continue with the rest.  `generateBatchEmbeddings` never
throws (its `catch` always returns fallback records), so the `try/catch`
skip branch in the source is unreachable and the records are concatenated
in batch order. -/
def generateEmbeddingsGo (provider : Provider) : List Text → List EmbeddingRecord
  | [] => []
  | t :: ts =>
      (generateBatchEmbeddings provider ((t :: ts).take batchSize) 0).records
        ++ generateEmbeddingsGo provider ((t :: ts).drop batchSize)
termination_by l => l.length
decreasing_by
  simp only [batchSize, List.length_drop, List.length_cons]
  omega

/-- `EmbeddingsService.generateEmbeddings(texts)`: with no API key, warn and
return `[]`; otherwise process the texts in batches of `batchSize`. -/
def generateEmbeddings (apiKey : Option Text) (provider : Provider)
    (texts : List Text) : List EmbeddingRecord :=
  match apiKey with
  | none => []
  | some _ => generateEmbeddingsGo provider texts

/- ### SessionManager (src/services/sessionManager.js), in-memory fallback backend

The fallback storage is one JS `Map` whose keys are the disjoint families
`session:<id>` and `messages:<id>`; it is embedded as a pair of partial maps
keyed by the session id.  Timestamps are milliseconds since epoch (`Nat`);
the message payload type `M` is opaque to the store, as it is in the source.
`sessionTTL` is in seconds (`CHAT_HISTORY_TTL`, default 86400) and is kept a
parameter of the sweep. -/

/-- a session record: `{id, created, lastActivity, messageCount}` (the id is
the map key). -/
structure SessionData where
  created : Nat
  lastActivity : Nat
  messageCount : Nat
deriving DecidableEq

/-- the in-memory fallback storage. -/
structure FallbackStore (M : Type) where
  sessions : List Char → Option SessionData
  messages : List Char → Option (List M)

/-- the storage before any session is created. -/
def emptyStore (M : Type) : FallbackStore M :=
  ⟨fun _ => none, fun _ => none⟩

/-- `SessionManager.createSession(sessionId)` at time `now`: a fresh record
and an empty message list. -/
def createSession (st : FallbackStore M) (id : List Char) (now : Nat) :
    SessionData × FallbackStore M :=
  let s : SessionData := ⟨now, now, 0⟩
  (s, ⟨fun k => if k = id then some s else st.sessions k,
       fun k => if k = id then some [] else st.messages k⟩)

/-- `SessionManager.getSessionInfo(sessionId)`: return the stored record, or
lazily create one on miss (a read with a write side effect). -/
def getSessionInfo (st : FallbackStore M) (id : List Char) (now : Nat) :
    SessionData × FallbackStore M :=
  match st.sessions id with
  | some s => (s, st)
  | none => createSession st id now

/-- `SessionManager.addMessage(sessionId, message)` at time `now`: ensure the
session exists, push the message, `splice(0, length - 100)` when the list
exceeds 100, store it back, then refresh `lastActivity`/`messageCount` on the
session record (guarded, as in the source, on the record being present). -/
def addMessage (st : FallbackStore M) (id : List Char) (msg : M) (now : Nat) :
    FallbackStore M :=
  let st1 := (getSessionInfo st id now).2
  let msgs1 := ((st1.messages id).getD []) ++ [msg]
  let msgs := if msgs1.length > 100 then msgs1.drop (msgs1.length - 100) else msgs1
  let st2 : FallbackStore M :=
    ⟨st1.sessions, fun k => if k = id then some msgs else st1.messages k⟩
  match st2.sessions id with
  | some s =>
      ⟨fun k => if k = id then some ⟨s.created, now, msgs.length⟩
                else st2.sessions k,
       st2.messages⟩
  | none => st2

/-- `SessionManager.getMessages(sessionId, {limit, offset})`:
`slice(max(0, length - limit - offset), max(0, length - offset))`;
the JS `Math.max(0, _)` is Nat truncated subtraction. -/
def getMessages (st : FallbackStore M) (id : List Char) (limit offset : Nat) :
    List M :=
  let msgs := (st.messages id).getD []
  let startIndex := msgs.length - limit - offset
  let endIndex := msgs.length - offset
  (msgs.drop startIndex).take (endIndex - startIndex)

/-- `SessionManager.deleteSession(sessionId)`: remove both entries. -/
def deleteSession (st : FallbackStore M) (id : List Char) : FallbackStore M :=
  ⟨fun k => if k = id then none else st.sessions k,
   fun k => if k = id then none else st.messages k⟩

/-- one tick of `SessionManager.startCleanupTimer`: evict every session whose
`created` is more than `ttl * 1000` ms in the past, together with its paired
message list (the JS `sessionAge > sessionTTL * 1000` on a possibly negative
age matches Nat truncated subtraction). -/
def cleanupSweep (st : FallbackStore M) (ttl now : Nat) : FallbackStore M :=
  ⟨fun k => match st.sessions k with
    | some s => if now - s.created > ttl * 1000 then none else some s
    | none => none,
   fun k => match st.sessions k with
    | some s => if now - s.created > ttl * 1000 then none else st.messages k
    | none => st.messages k⟩

/- ### IngestionService (src/services/ingestion.js) -/

/-- an ingested article: `{title, content, url, source, publishedAt, author,
description, image}`. -/
structure Article where
  title : List Char
  content : List Char
  url : List Char
  source : List Char
  publishedAt : Nat
  author : Option (List Char)
  description : Option (List Char)
  image : Option (List Char)
deriving DecidableEq

/-- the deduplication key: `article.title.toLowerCase().substring(0, 50)`. -/
def dedupKey (a : Article) : List Char :=
  (a.title.map Char.toLower).take 50

/-- the filter loop of `removeDuplicates` with its mutable seen-set made
explicit. -/
def removeDupGo (seen : List (List Char)) : List Article → List Article
  | [] => []
  | a :: rest =>
      if dedupKey a ∈ seen then removeDupGo seen rest
      else a :: removeDupGo (dedupKey a :: seen) rest

/-- `IngestionService.removeDuplicates(articles)`. -/
def removeDuplicates (articles : List Article) : List Article :=
  removeDupGo [] articles

/-- Spec-side reference for C4 ("return a subsequence preserving first-seen
order, filtering out any Article whose normalized key already appeared"):
keep the head, drop every later article with the same key, recurse. -/
def keepFirstByKey : List Article → List Article
  | [] => []
  | a :: rest =>
      a :: keepFirstByKey (rest.filter (fun b => dedupKey b ≠ dedupKey a))
termination_by l => l.length
decreasing_by
  exact Nat.lt_succ_of_le (List.length_filter_le _ _)

/-- JS `content.split(" ")`: split on every single space; consecutive
separators and boundary separators yield empty fields, and the result is
never the empty list (the empty string splits to one empty field). -/
def splitOnSpace : List Char → List (List Char)
  | [] => [[]]
  | c :: cs =>
      match splitOnSpace cs with
      | [] => [[]]
      | w :: ws => if c = ' ' then [] :: w :: ws else (c :: w) :: ws

/-- JS `words.join(" ")`: the words separated by single spaces. -/
def joinSpace : List (List Char) → List Char
  | [] => []
  | [w] => w
  | w :: ws => w ++ ' ' :: joinSpace ws

/-- JS `String.prototype.trim()`: strip whitespace from both ends. -/
def jsTrim (s : List Char) : List Char :=
  ((s.dropWhile Char.isWhitespace).reverse.dropWhile Char.isWhitespace).reverse

/-- the loop of `chunkContent`: `for (i = 0; i < words.length; i += step)`
push `words.slice(i, i + size).join(" ").trim()` when nonempty.  The loop
variable advances by `step = maxChunkSize - overlap`; the fuel argument only
bounds the iteration count and is chosen large enough to be inert whenever
`step ≥ 1` (the source loop does not terminate when `step ≤ 0`). -/
def chunkGo (words : List (List Char)) (size step : Nat) :
    Nat → Nat → List (List Char)
  | _, 0 => []
  | i, fuel + 1 =>
      if i < words.length then
        let chunk := jsTrim (joinSpace ((words.drop i).take size))
        if chunk = [] then chunkGo words size step (i + step) fuel
        else chunk :: chunkGo words size step (i + step) fuel
      else []

/-- `IngestionService.chunkContent(content, maxChunkSize = 500, overlap = 50)`. -/
def chunkContent (content : List Char) (maxChunkSize overlap : Nat) :
    List (List Char) :=
  let words := splitOnSpace content
  let chunks :=
    chunkGo words maxChunkSize (maxChunkSize - overlap) 0 (words.length + 1)
  if chunks = [] then [content] else chunks

/- ### EmbeddingsService.cosineSimilarity -/

/-- the single programmer-error condition `cosineSimilarity` raises for. -/
inductive SimError where
  | lengthMismatch
deriving DecidableEq

/-- `EmbeddingsService.cosineSimilarity(vecA, vecB)` over ℝ: throw on length
mismatch; otherwise one fold accumulates dot product and both squared norms
(the source loop reads `vecA[i]`/`vecB[i]` for every index of `vecA`, which
in the non-throwing branch is exactly the zip of the two vectors), then the
zero-norm guard returns 0 before the division. -/
noncomputable def cosineSimilarity (vecA vecB : List ℝ) : Except SimError ℝ :=
  if vecA.length ≠ vecB.length then .error .lengthMismatch
  else
    let s := (vecA.zip vecB).foldl
      (fun acc p => (acc.1 + p.1 * p.2, acc.2.1 + p.1 * p.1, acc.2.2 + p.2 * p.2))
      ((0 : ℝ), (0 : ℝ), (0 : ℝ))
    let normA := Real.sqrt s.2.1
    let normB := Real.sqrt s.2.2
    if normA = 0 ∨ normB = 0 then .ok 0
    else .ok (s.1 / (normA * normB))

/- ### concrete values used by witnesses -/

/-- the provider contract assumed by C1: every successful response carries
exactly one item per input text, indexed by batch position. -/
def Aligned (provider : Provider) : Prop :=
  ∀ ts n items, provider ts n = some items →
    items.map RawItem.index = List.range ts.length

/-- a provider whose every response aligns one embedding per input. -/
def alignedProvider : Provider :=
  fun ts _ => some ((List.range ts.length).map (fun i => ⟨[], i⟩))

/-- a provider whose every call fails. -/
def failingProvider : Provider :=
  fun _ _ => none

/-- a store holding one session with a full 100-message history. -/
def fullStore : FallbackStore Nat :=
  ⟨fun k => if k = ['a'] then some ⟨0, 0, 100⟩ else none,
   fun k => if k = ['a'] then some (List.range 100) else none⟩

/- ### theorems -/

theorem batch_attempts_delays (provider : Provider) (texts : List Text) (rc : Nat) :
    (generateBatchEmbeddings provider texts rc).attempts ≤ maxRetries - rc + 1
    ∧ 1 ≤ (generateBatchEmbeddings provider texts rc).attempts
    ∧ (generateBatchEmbeddings provider texts rc).delays
        = (List.range ((generateBatchEmbeddings provider texts rc).attempts - 1)).map
            (fun a => retryDelay * 2 ^ (rc + a)) := by
  induction rc using generateBatchEmbeddings.induct provider texts with
  | case1 rc items h =>
      rw [generateBatchEmbeddings]; simp [h]
  | case2 rc h hlt ih =>
      rw [generateBatchEmbeddings]
      simp only [h, hlt, dif_pos]
      obtain ⟨ih1, ih2, ih3⟩ := ih
      refine ⟨by omega, by omega, ?_⟩
      obtain ⟨k, hk⟩ : ∃ k, (generateBatchEmbeddings provider texts (rc + 1)).attempts
          = k + 1 := ⟨_, (Nat.succ_pred_eq_of_pos ih2).symm⟩
      rw [ih3, hk]
      have hfun : ((fun a => retryDelay * 2 ^ (rc + a)) ∘ Nat.succ)
          = (fun a => retryDelay * 2 ^ (rc + 1 + a)) := by
        funext a
        simp only [Function.comp_apply, Nat.succ_eq_add_one]
        rw [(by omega : rc + (a + 1) = rc + 1 + a)]
      simp [List.range_succ_eq_map, List.map_map, hfun]
  | case3 rc h hge =>
      rw [generateBatchEmbeddings]; simp [h, hge]

theorem batch_allFail_records (provider : Provider) (texts : List Text)
    (hp : ∀ n, provider texts n = none) (rc : Nat) :
    (generateBatchEmbeddings provider texts rc).records
      = (List.range texts.length).map
          (fun i => ⟨List.replicate embeddingDim 0, i, true⟩) := by
  induction rc using generateBatchEmbeddings.induct provider texts with
  | case1 rc items h => rw [hp rc] at h; cases h
  | case2 rc h hlt ih =>
      rw [generateBatchEmbeddings]; simp only [h, hlt, dif_pos]; exact ih
  | case3 rc h hge =>
      rw [generateBatchEmbeddings]; simp [h, hge]

theorem batch_aligned_map_index (provider : Provider) (hA : Aligned provider)
    (texts : List Text) (rc : Nat) :
    (generateBatchEmbeddings provider texts rc).records.map EmbeddingRecord.index
      = List.range texts.length := by
  induction rc using generateBatchEmbeddings.induct provider texts with
  | case1 rc items h =>
      rw [generateBatchEmbeddings]
      simp only [h, List.map_map]
      have := hA texts rc items h
      simpa [Function.comp_def] using this
  | case2 rc h hlt ih =>
      rw [generateBatchEmbeddings]; simp only [h, hlt, dif_pos]; exact ih
  | case3 rc h hge =>
      rw [generateBatchEmbeddings]
      simp [h, hge, List.map_map, Function.comp_def]

theorem get_of_map_index_range {l : List EmbeddingRecord} {n : Nat}
    (h : l.map EmbeddingRecord.index = List.range n) {j : Nat} (hj : j < l.length) :
    (l.get ⟨j, hj⟩).index = j := by
  have hj' : j < (l.map EmbeddingRecord.index).length := by simpa using hj
  have h1 : (l.map EmbeddingRecord.index).get ⟨j, hj'⟩ = (l.get ⟨j, hj⟩).index := by
    simp
  have h2 := List.get_of_eq h ⟨j, hj'⟩
  rw [h1] at h2
  simpa using h2

theorem go_aligned (provider : Provider) (hA : Aligned provider) :
    ∀ (n : Nat) (ts : List Text), ts.length ≤ n →
      (generateEmbeddingsGo provider ts).length = ts.length
      ∧ ∀ j (hj : j < (generateEmbeddingsGo provider ts).length),
          ((generateEmbeddingsGo provider ts).get ⟨j, hj⟩).index = j % batchSize := by
  intro n
  induction n with
  | zero =>
      intro ts hts
      have hnil : ts = [] := List.eq_nil_of_length_eq_zero (by omega)
      subst hnil
      refine ⟨by simp [generateEmbeddingsGo], ?_⟩
      intro j hj
      simp [generateEmbeddingsGo] at hj
  | succ n ih =>
      intro ts hts
      match ts with
      | [] =>
          refine ⟨by simp [generateEmbeddingsGo], ?_⟩
          intro j hj
          simp [generateEmbeddingsGo] at hj
      | t :: ts' =>
          rw [generateEmbeddingsGo]
          have hBmap := batch_aligned_map_index provider hA ((t :: ts').take batchSize) 0
          have hBlen : (generateBatchEmbeddings provider ((t :: ts').take batchSize) 0).records.length
              = min batchSize (ts'.length + 1) := by
            have := congrArg List.length hBmap
            simpa using this
          have hdroplen : ((t :: ts').drop batchSize).length ≤ n := by
            simp only [List.length_drop, List.length_cons]
            simp only [List.length_cons] at hts
            have : (1 : Nat) ≤ batchSize := by simp [batchSize]
            omega
          obtain ⟨ihlen, ihget⟩ := ih ((t :: ts').drop batchSize) hdroplen
          constructor
          · simp only [List.length_append, hBlen, ihlen, List.length_drop,
              List.length_cons]
            omega
          · intro j hj
            by_cases hcase : j < (generateBatchEmbeddings provider
                ((t :: ts').take batchSize) 0).records.length
            · rw [List.get_append _ hcase]
              have hidx := get_of_map_index_range hBmap hcase
              rw [hidx]
              have hjlt : j < batchSize := by
                rw [hBlen] at hcase
                omega
              exact (Nat.mod_eq_of_lt hjlt).symm
            · push_neg at hcase
              have hj' : j - (generateBatchEmbeddings provider
                  ((t :: ts').take batchSize) 0).records.length
                  < (generateEmbeddingsGo provider ((t :: ts').drop batchSize)).length := by
                simp only [List.length_append] at hj
                omega
              rw [List.get_append_right _ _ (by omega)]
              have := ihget _ (by exact hj')
              rw [this]
              -- the batch is full here: fewer than batchSize texts leave no tail
              have hfull : (generateBatchEmbeddings provider
                  ((t :: ts').take batchSize) 0).records.length = batchSize := by
                rw [hBlen]
                rcases Nat.lt_or_ge ts'.length (batchSize - 1) with hsmall | hbig
                · exfalso
                  rw [ihlen] at hj'
                  simp only [List.length_drop, List.length_cons] at hj'
                  rw [hBlen] at hcase
                  have : (1 : Nat) ≤ batchSize := by simp [batchSize]
                  omega
                · omega
              rw [hfull]
              have hjge : batchSize ≤ j := by rw [hfull] at hcase; exact hcase
              conv_rhs => rw [(by omega : j = (j - batchSize) + batchSize)]
              rw [Nat.add_mod_right]

/-- C9: with no embedding API key configured, `generateEmbeddings` returns
the empty list immediately, for every input and every provider (no provider
call is consulted and no error is raised). -/
theorem generateEmbeddings_no_api_key (provider : Provider) (texts : List Text) :
    generateEmbeddings none provider texts = [] := rfl

/-- C8: a batch call makes at most `maxRetries + 1 = 4` provider attempts,
awaits exactly the exponential-backoff delays `retryDelay * 2 ^ a` for
`a = 0, 1, ...` between consecutive attempts, and terminates with a result
(after the ceiling it returns records rather than retrying or raising). -/
theorem generateBatchEmbeddings_retry_bound (provider : Provider) (texts : List Text) :
    (generateBatchEmbeddings provider texts 0).attempts ≤ maxRetries + 1
    ∧ (generateBatchEmbeddings provider texts 0).delays
        = (List.range ((generateBatchEmbeddings provider texts 0).attempts - 1)).map
            (fun a => retryDelay * 2 ^ a) := by
  have h := batch_attempts_delays provider texts 0
  refine ⟨by simpa using h.1, ?_⟩
  simpa using h.2.2

/-- C5: when every provider call fails, the retry ceiling is exhausted and
`generateBatchEmbeddings` returns exactly one record per input text, each a
zero-filled vector of length 768 flagged failed, indexed by batch position. -/
theorem generateBatchEmbeddings_all_failures (provider : Provider) (texts : List Text)
    (hp : ∀ n, provider texts n = none) :
    (generateBatchEmbeddings provider texts 0).records.length = texts.length
    ∧ ∀ j (hj : j < (generateBatchEmbeddings provider texts 0).records.length),
        (generateBatchEmbeddings provider texts 0).records.get ⟨j, hj⟩
          = ⟨List.replicate 768 0, j, true⟩ := by
  have h := batch_allFail_records provider texts hp 0
  rw [h]
  refine ⟨by simp, ?_⟩
  intro j hj
  simp only [List.length_map, List.length_range] at hj
  simp only [List.get_eq_getElem, List.getElem_map, List.getElem_range, embeddingDim]

/-- witness for C5 at a concrete two-text batch against the provider that
fails every call. -/
theorem generateBatchEmbeddings_all_failures_witness :
    (generateBatchEmbeddings failingProvider [['a'], ['b']] 0).records.length = 2 :=
  (generateBatchEmbeddings_all_failures failingProvider [['a'], ['b']]
    (fun _ => rfl)).1

/-- C1: with an API key configured and a provider whose every successful
response aligns one embedding per input, `generateEmbeddings` returns exactly
one record per input text, ordered by batch position (the j-th record's index
is j's position inside its batch of `batchSize`), for any mix of per-batch
success and failure. -/
theorem generateEmbeddings_length_aligned (apiKey : Text) (provider : Provider)
    (texts : List Text) (hA : Aligned provider) :
    (generateEmbeddings (some apiKey) provider texts).length = texts.length
    ∧ ∀ j (hj : j < (generateEmbeddings (some apiKey) provider texts).length),
        ((generateEmbeddings (some apiKey) provider texts).get ⟨j, hj⟩).index
          = j % batchSize := by
  exact go_aligned provider hA texts.length texts (Nat.le_refl _)

/-- witness for C1: the aligned provider on two texts yields two records. -/
theorem generateEmbeddings_length_aligned_witness :
    (generateEmbeddings (some ['k']) alignedProvider [['a'], ['b']]).length = 2 :=
  (generateEmbeddings_length_aligned ['k'] alignedProvider [['a'], ['b']]
    (by
      intro ts n items h
      simp only [alignedProvider, Option.some.injEq] at h
      subst h
      simp [List.map_map, Function.comp_def])).1

theorem addMessage_messages_some {M : Type} (st : FallbackStore M) (id : List Char)
    (msg : M) (now : Nat) (s : SessionData) (hs : st.sessions id = some s) :
    (addMessage st id msg now).messages id
      = some (((st.messages id).getD [] ++ [msg]).drop
          ((((st.messages id).getD []).length + 1) - 100)) := by
  simp only [addMessage, getSessionInfo, hs, if_true, List.length_append,
    List.length_singleton, gt_iff_lt]
  split
  · rfl
  · rename_i hle
    rw [(by omega : (((st.messages id).getD []).length + 1) - 100 = 0), List.drop_zero]

theorem addMessage_messages_none {M : Type} (st : FallbackStore M) (id : List Char)
    (msg : M) (now : Nat) (hs : st.sessions id = none) :
    (addMessage st id msg now).messages id = some [msg] := by
  simp only [addMessage, getSessionInfo, createSession, hs, if_true]
  norm_num

theorem addMessage_sessions_some {M : Type} (st : FallbackStore M) (id : List Char)
    (msg : M) (now : Nat) (s : SessionData) (hs : st.sessions id = some s) :
    ∃ n, (addMessage st id msg now).sessions id = some ⟨s.created, now, n⟩ := by
  simp only [addMessage, getSessionInfo, hs, if_true]
  exact ⟨_, rfl⟩

/-- C2: after any `addMessage`, the stored message list for the session has
length at most 100; and for a session that already exists, the new list is
exactly the appended history with precisely the oldest overflow discarded
(so the most recent 100 are retained in order). -/
theorem addMessage_cap {M : Type} (st : FallbackStore M) (id : List Char)
    (msg : M) (now : Nat) :
    (((addMessage st id msg now).messages id).getD []).length ≤ 100
    ∧ ∀ s, st.sessions id = some s →
        ((addMessage st id msg now).messages id).getD []
          = (((st.messages id).getD []) ++ [msg]).drop
              ((((st.messages id).getD []).length + 1) - 100) := by
  cases hs : st.sessions id with
  | some s =>
      rw [addMessage_messages_some st id msg now s hs]
      constructor
      · simp only [Option.getD_some, List.length_drop, List.length_append,
          List.length_singleton]
        omega
      · intro s' _
        rfl
  | none =>
      rw [addMessage_messages_none st id msg now hs]
      refine ⟨by simp, ?_⟩
      intro s' hs'
      exact Option.noConfusion hs'

/-- witness for C2 on a store whose session already holds 100 messages:
the 101st append keeps length 100 and drops exactly the oldest message. -/
theorem addMessage_cap_witness :
    (((addMessage fullStore ['a'] 100 7).messages ['a']).getD []).length ≤ 100
    ∧ ((addMessage fullStore ['a'] 100 7).messages ['a']).getD []
        = ((List.range 100) ++ [100]).drop 1 := by
  have h := addMessage_cap fullStore ['a'] (100 : Nat) 7
  refine ⟨h.1, ?_⟩
  have h2 := h.2 ⟨0, 0, 100⟩ (by decide)
  simp only [fullStore, if_pos, Option.getD_some, List.length_range] at h2
  simpa using h2

/-- C7: `getMessages` returns exactly the most recent `limit` messages after
skipping the most recent `offset` (fewer when the history is shorter than
`limit + offset`), in their original chronological order: it is the slice
obtained by first discarding the newest `offset` messages and then keeping
the last `limit` of what remains. -/
theorem getMessages_recent {M : Type} (st : FallbackStore M) (id : List Char)
    (limit offset : Nat) :
    getMessages st id limit offset
      = (((st.messages id).getD []).take ((((st.messages id).getD []).length) - offset)).drop
          (((((st.messages id).getD []).length) - offset) - limit)
    ∧ (getMessages st id limit offset).length
        = min limit ((((st.messages id).getD []).length) - offset) := by
  simp only [getMessages]
  constructor
  · rw [List.drop_take,
      (by omega : (((st.messages id).getD []).length - limit) - offset
        = (((st.messages id).getD []).length - offset) - limit)]
  · simp only [List.length_take, List.length_drop]
    omega

/-- counterexample to C6 as stated: in the fallback backend a session whose
most recent append happened at time T = 86400000 ms is evicted by a sweep at
time 86400001 ms, strictly before T + TTL (TTL = 86400 s) has elapsed,
because the sweep measures age from `created`, not from the last write. -/
theorem cleanup_not_sliding_counterexample :
    ((addMessage ((createSession (emptyStore Nat) ['a'] 0).2) ['a'] 0 86400000).sessions ['a']
        = some ⟨0, 86400000, 1⟩)
    ∧ 86400001 < 86400000 + 86400 * 1000
    ∧ (cleanupSweep
        (addMessage ((createSession (emptyStore Nat) ['a'] 0).2) ['a'] 0 86400000)
        86400 86400001).sessions ['a'] = none := by
  refine ⟨by decide, by norm_num, by decide⟩

/-- C6 amended: in the fallback backend, expiration is measured from the
session's `created` timestamp, not from its last write: the periodic sweep
evicts a session iff `now - created > ttl * 1000`, and an append refreshes
`lastActivity` but leaves `created` unchanged, so appends never extend the
sweep lifetime. -/
theorem cleanupSweep_created_ttl {M : Type} (st : FallbackStore M) (ttl now : Nat)
    (id : List Char) (s : SessionData) (hs : st.sessions id = some s) :
    ((cleanupSweep st ttl now).sessions id
        = if now - s.created > ttl * 1000 then none else some s)
    ∧ ∀ (msg : M) (t : Nat), ∃ s', (addMessage st id msg t).sessions id = some s'
        ∧ s'.created = s.created := by
  constructor
  · simp [cleanupSweep, hs]
  · intro msg t
    obtain ⟨n, hn⟩ := addMessage_sessions_some st id msg t s hs
    exact ⟨⟨s.created, t, n⟩, hn, rfl⟩

/-- witness for C6's amended statement: a session created at 5 ms survives a
sweep at 20 ms with TTL 10 s. -/
theorem cleanupSweep_created_ttl_witness :
    (cleanupSweep ((createSession (emptyStore Nat) ['a'] 5).2) 10 20).sessions ['a']
      = some ⟨5, 5, 0⟩ := by
  have h := (cleanupSweep_created_ttl ((createSession (emptyStore Nat) ['a'] 5).2)
    10 20 ['a'] ⟨5, 5, 0⟩ (by decide)).1
  simpa using h

theorem removeDupGo_eq_keepFirst (l : List Article) :
    ∀ seen, removeDupGo seen l
      = keepFirstByKey (l.filter (fun a => dedupKey a ∉ seen)) := by
  induction l with
  | nil => intro seen; simp [removeDupGo, keepFirstByKey]
  | cons a rest ih =>
      intro seen
      by_cases hmem : dedupKey a ∈ seen
      · rw [removeDupGo]
        simp only [hmem, if_true, List.filter_cons]
        rw [if_neg (by simp [hmem])]
        exact ih seen
      · rw [removeDupGo]
        simp only [hmem, if_false, List.filter_cons]
        rw [if_pos (by simp [hmem])]
        rw [keepFirstByKey, ih (dedupKey a :: seen)]
        congr 1
        rw [List.filter_filter]
        have hf : List.filter (fun b => decide (dedupKey b ∉ dedupKey a :: seen)) rest
            = List.filter
                (fun b => decide (dedupKey b ≠ dedupKey a) && decide (dedupKey b ∉ seen))
                rest := by
          apply List.filter_congr
          intro b _
          rw [← Bool.decide_and]
          apply decide_eq_decide.mpr
          simp [List.mem_cons, not_or]
        rw [hf]

theorem keepFirstByKey_sublist (l : List Article) :
    (keepFirstByKey l).Sublist l := by
  induction l using keepFirstByKey.induct with
  | case1 => simp [keepFirstByKey]
  | case2 a rest ih =>
      rw [keepFirstByKey]
      exact List.Sublist.cons₂ a (ih.trans (List.filter_sublist _))

theorem keepFirstByKey_nodup_keys (l : List Article) :
    ((keepFirstByKey l).map dedupKey).Nodup := by
  induction l using keepFirstByKey.induct with
  | case1 => simp [keepFirstByKey]
  | case2 a rest ih =>
      rw [keepFirstByKey]
      simp only [List.map_cons, List.nodup_cons]
      refine ⟨?_, ih⟩
      intro hmem
      obtain ⟨b, hb, hkey⟩ := List.mem_map.mp hmem
      have hbf : b ∈ rest.filter (fun c => dedupKey c ≠ dedupKey a) :=
        (keepFirstByKey_sublist _).subset hb
      have := List.of_mem_filter hbf
      simp only [ne_eq, decide_not, Bool.not_eq_eq_eq_not, Bool.not_true,
        decide_eq_false_iff_not] at this
      exact this hkey

/-- C4: `removeDuplicates` keeps exactly the first article for each
normalized key (lower-cased title truncated to 50 characters), returns a
subsequence of its input in first-seen order, no two returned articles share
a key, and the empty input yields the empty output. -/
theorem removeDuplicates_spec (articles : List Article) :
    removeDuplicates articles = keepFirstByKey articles
    ∧ (removeDuplicates articles).Sublist articles
    ∧ ((removeDuplicates articles).map dedupKey).Nodup
    ∧ removeDuplicates ([] : List Article) = [] := by
  have heq : removeDuplicates articles = keepFirstByKey articles := by
    rw [removeDuplicates, removeDupGo_eq_keepFirst]
    congr 1
    simp
  refine ⟨heq, ?_, ?_, rfl⟩
  · rw [heq]; exact keepFirstByKey_sublist articles
  · rw [heq]; exact keepFirstByKey_nodup_keys articles

theorem foldl_sums_normA_zero (l : List (ℝ × ℝ)) :
    (∀ p ∈ l, p.1 = 0) → ∀ acc : ℝ × ℝ × ℝ,
      (l.foldl (fun acc p =>
        (acc.1 + p.1 * p.2, acc.2.1 + p.1 * p.1, acc.2.2 + p.2 * p.2)) acc).2.1
        = acc.2.1 := by
  induction l with
  | nil => intro _ acc; rfl
  | cons p rest ih =>
      intro h acc
      have hp : p.1 = 0 := h p (by simp)
      simp only [List.foldl_cons]
      rw [ih (fun q hq => h q (by simp [hq]))]
      simp [hp]

theorem foldl_sums_normB_zero (l : List (ℝ × ℝ)) :
    (∀ p ∈ l, p.2 = 0) → ∀ acc : ℝ × ℝ × ℝ,
      (l.foldl (fun acc p =>
        (acc.1 + p.1 * p.2, acc.2.1 + p.1 * p.1, acc.2.2 + p.2 * p.2)) acc).2.2
        = acc.2.2 := by
  induction l with
  | nil => intro _ acc; rfl
  | cons p rest ih =>
      intro h acc
      have hp : p.2 = 0 := h p (by simp)
      simp only [List.foldl_cons]
      rw [ih (fun q hq => h q (by simp [hq]))]
      simp [hp]

/-- C10: `cosineSimilarity` raises exactly when the two vectors have
different lengths; for equal-length vectors it always returns a value, and
when either vector has zero norm (all components zero) it returns 0 instead
of dividing by zero. -/
theorem cosineSimilarity_safe (vecA vecB : List ℝ) :
    (cosineSimilarity vecA vecB = .error .lengthMismatch
       ↔ vecA.length ≠ vecB.length)
    ∧ (vecA.length = vecB.length → (∀ x ∈ vecA, x = 0) →
        cosineSimilarity vecA vecB = .ok 0)
    ∧ (vecA.length = vecB.length → (∀ x ∈ vecB, x = 0) →
        cosineSimilarity vecA vecB = .ok 0)
    ∧ (vecA.length = vecB.length → ∃ r, cosineSimilarity vecA vecB = .ok r) := by
  have herr : cosineSimilarity vecA vecB = .error .lengthMismatch
      ↔ vecA.length ≠ vecB.length := by
    by_cases hlen : vecA.length = vecB.length
    · simp only [cosineSimilarity]
      rw [if_neg (by simp [hlen])]
      constructor
      · intro habs
        split at habs
        · exact Except.noConfusion habs
        · exact Except.noConfusion habs
      · intro hne
        exact absurd hlen hne
    · simp only [cosineSimilarity]
      rw [if_pos hlen]
      simp [hlen]
  refine ⟨herr, ?_, ?_, ?_⟩
  · intro hlen hzero
    have hz1 := foldl_sums_normA_zero (vecA.zip vecB)
      (fun p hp => hzero p.1 (List.of_mem_zip hp).1)
      ((0 : ℝ), (0 : ℝ), (0 : ℝ))
    simp only [cosineSimilarity]
    rw [if_neg (by simp [hlen])]
    rw [hz1]
    simp [Real.sqrt_zero]
  · intro hlen hzero
    have hz2 := foldl_sums_normB_zero (vecA.zip vecB)
      (fun p hp => hzero p.2 (List.of_mem_zip hp).2)
      ((0 : ℝ), (0 : ℝ), (0 : ℝ))
    simp only [cosineSimilarity]
    rw [if_neg (by simp [hlen])]
    rw [hz2]
    simp [Real.sqrt_zero]
  · intro hlen
    cases hres : cosineSimilarity vecA vecB with
    | ok r => exact ⟨r, rfl⟩
    | error e =>
        cases e
        exact absurd hlen (herr.mp hres)

/-- witness for C10: two zero vectors of length 1 have equal lengths and the
similarity returns 0. -/
theorem cosineSimilarity_safe_witness :
    cosineSimilarity [(0 : ℝ)] [(0 : ℝ)] = .ok 0 :=
  (cosineSimilarity_safe [(0 : ℝ)] [(0 : ℝ)]).2.1 rfl (by simp)

theorem splitOnSpace_ne_nil (l : List Char) : splitOnSpace l ≠ [] := by
  cases l with
  | nil => simp [splitOnSpace]
  | cons c cs =>
      rw [splitOnSpace]
      cases h : splitOnSpace cs with
      | nil => simp
      | cons w ws =>
          by_cases hc : c = ' '
          · simp [hc]
          · simp [hc]

theorem joinSpace_good_head : ∀ (ws : List (List Char)),
    (∀ w ∈ ws, w ≠ [] ∧ ∀ c ∈ w, c.isWhitespace = false) → ws ≠ [] →
    ∃ c cs, joinSpace ws = c :: cs ∧ c.isWhitespace = false
  | [], _, hne => absurd rfl hne
  | w :: rest, h, _ => by
      obtain ⟨hw, hcs⟩ := h w (by simp)
      match w, hw with
      | c :: w', _ =>
        cases rest with
        | nil => exact ⟨c, w', rfl, hcs c (by simp)⟩
        | cons v rest' =>
            exact ⟨c, w' ++ ' ' :: joinSpace (v :: rest'), rfl, hcs c (by simp)⟩

theorem joinSpace_append_single : ∀ (ws : List (List Char)) (y : List Char),
    ws ≠ [] → joinSpace (ws ++ [y]) = joinSpace ws ++ ' ' :: y
  | [], _, hne => absurd rfl hne
  | [_], _, _ => rfl
  | w :: v :: rest, y, _ => by
      have ih := joinSpace_append_single (v :: rest) y (by simp)
      show w ++ ' ' :: joinSpace ((v :: rest) ++ [y])
          = (w ++ ' ' :: joinSpace (v :: rest)) ++ ' ' :: y
      rw [ih]
      simp [List.append_assoc]

theorem joinSpace_reverse : ∀ (ws : List (List Char)),
    (joinSpace ws).reverse = joinSpace ((ws.map List.reverse).reverse)
  | [] => rfl
  | [_] => rfl
  | w :: v :: rest => by
      have ih := joinSpace_reverse (v :: rest)
      have hne : ((v :: rest).map List.reverse).reverse ≠ [] := by simp
      calc (joinSpace (w :: v :: rest)).reverse
          = (w ++ ' ' :: joinSpace (v :: rest)).reverse := rfl
        _ = (' ' :: joinSpace (v :: rest)).reverse ++ w.reverse :=
              List.reverse_append _ _
        _ = ((joinSpace (v :: rest)).reverse ++ [' ']) ++ w.reverse := by
              rw [List.reverse_cons]
        _ = (joinSpace (((v :: rest).map List.reverse).reverse) ++ [' '])
              ++ w.reverse := by rw [ih]
        _ = joinSpace (((v :: rest).map List.reverse).reverse)
              ++ ' ' :: w.reverse := by simp [List.append_assoc]
        _ = joinSpace ((((v :: rest).map List.reverse).reverse) ++ [w.reverse]) := by
              rw [joinSpace_append_single _ _ hne]
        _ = joinSpace (((w :: v :: rest).map List.reverse).reverse) := by
              conv_rhs => rw [List.map_cons, List.reverse_cons]

theorem jsTrim_joinSpace_good (ws : List (List Char))
    (h : ∀ w ∈ ws, w ≠ [] ∧ ∀ c ∈ w, c.isWhitespace = false) (hne : ws ≠ []) :
    jsTrim (joinSpace ws) = joinSpace ws ∧ joinSpace ws ≠ [] := by
  obtain ⟨c, cs, hj, hc⟩ := joinSpace_good_head ws h hne
  have h1 : (joinSpace ws).dropWhile Char.isWhitespace = joinSpace ws := by
    rw [hj]
    simp [List.dropWhile_cons, hc]
  have hgood' : ∀ w ∈ (ws.map List.reverse).reverse,
      w ≠ [] ∧ ∀ c ∈ w, c.isWhitespace = false := by
    intro w hw
    rw [List.mem_reverse, List.mem_map] at hw
    obtain ⟨v, hv, hveq⟩ := hw
    obtain ⟨hv1, hv2⟩ := h v hv
    subst hveq
    exact ⟨by simpa using hv1, fun ch hch => hv2 ch (by simpa using hch)⟩
  have hne' : (ws.map List.reverse).reverse ≠ [] := by simpa using hne
  obtain ⟨c', cs', hj', hc'⟩ := joinSpace_good_head _ hgood' hne'
  have h2 : ((joinSpace ws).reverse).dropWhile Char.isWhitespace
      = (joinSpace ws).reverse := by
    rw [joinSpace_reverse ws, hj']
    simp [List.dropWhile_cons, hc']
  constructor
  · rw [jsTrim, h1, h2, List.reverse_reverse]
  · rw [hj]
    simp

theorem slice_good (ws : List (List Char))
    (h : ∀ w ∈ ws, w ≠ [] ∧ ∀ c ∈ w, c.isWhitespace = false) (i S : Nat)
    (hi : i < ws.length) (hS : 0 < S) :
    (∀ w ∈ (ws.drop i).take S, w ≠ [] ∧ ∀ c ∈ w, c.isWhitespace = false)
    ∧ (ws.drop i).take S ≠ [] := by
  constructor
  · intro w hw
    exact h w (List.mem_of_mem_drop (List.mem_of_mem_take hw))
  · have hlen : ((ws.drop i).take S).length = min S (ws.length - i) := by simp
    intro habs
    rw [habs] at hlen
    simp only [List.length_nil] at hlen
    omega

theorem chunkGo_stop (ws : List (List Char)) (S d i fuel : Nat)
    (h : ws.length ≤ i) : chunkGo ws S d i fuel = [] := by
  cases fuel with
  | zero => rfl
  | succ n =>
      rw [chunkGo]
      rw [if_neg (by omega)]

theorem chunkGo_spec (ws : List (List Char)) (S O : Nat) (hOS : O < S)
    (hgood : ∀ w ∈ ws, w ≠ [] ∧ ∀ c ∈ w, c.isWhitespace = false) :
    ∀ fuel i, i < ws.length → ws.length - i ≤ fuel →
      chunkGo ws S (S - O) i fuel
        = (List.range ((ws.length - i - 1) / (S - O) + 1)).map
            (fun k => joinSpace ((ws.drop (i + k * (S - O))).take S)) := by
  have hd : 0 < S - O := by omega
  have hS : 0 < S := by omega
  intro fuel
  induction fuel with
  | zero => intro i hi hf; omega
  | succ n ih =>
      intro i hi hf
      rw [chunkGo, if_pos hi]
      obtain ⟨hg, hne⟩ := slice_good ws hgood i S hi hS
      obtain ⟨htrim, hjoin_ne⟩ := jsTrim_joinSpace_good _ hg hne
      show (if jsTrim (joinSpace ((ws.drop i).take S)) = []
            then chunkGo ws S (S - O) (i + (S - O)) n
            else jsTrim (joinSpace ((ws.drop i).take S))
              :: chunkGo ws S (S - O) (i + (S - O)) n) = _
      rw [htrim, if_neg hjoin_ne]
      by_cases hcase : i + (S - O) < ws.length
      · rw [ih (i + (S - O)) hcase (by omega)]
        have harith : (ws.length - i - 1) / (S - O) + 1
            = ((ws.length - (i + (S - O)) - 1) / (S - O) + 1) + 1 := by
          have h1 : ws.length - i - 1 = (ws.length - (i + (S - O)) - 1) + (S - O) := by
            omega
          rw [h1, Nat.add_div_right _ hd]
        rw [harith]
        conv_rhs => rw [List.range_succ_eq_map, List.map_cons, List.map_map]
        congr 1
        · simp
        · apply List.map_congr_left
          intro k _
          simp only [Function.comp_apply, Nat.succ_eq_add_one]
          rw [(by ring : i + (k + 1) * (S - O) = (i + (S - O)) + k * (S - O))]
      · rw [chunkGo_stop ws S (S - O) (i + (S - O)) n (by omega)]
        have hn1 : (ws.length - i - 1) / (S - O) = 0 := Nat.div_eq_of_lt (by omega)
        rw [hn1]
        simp [List.range_succ]

theorem cover_take (ws : List (List Char)) (S O : Nat) (hOS : O < S) :
    ∀ m, (ws.take S)
        ++ ((List.range m).map
            (fun j => (((ws.drop ((j + 1) * (S - O))).take S).drop O))).flatten
      = ws.take (m * (S - O) + S) := by
  have hS_eq : S = (S - O) + O := by omega
  intro m
  induction m with
  | zero => simp
  | succ m ih =>
      rw [List.range_succ, List.map_append, List.flatten_append,
        ← List.append_assoc, ih]
      simp only [List.map_cons, List.map_nil, List.flatten_cons, List.flatten_nil,
        List.append_nil]
      rw [List.drop_take, List.drop_drop]
      have h2 : (m + 1) * (S - O) = m * (S - O) + (S - O) := by ring
      have h1 : (m + 1) * (S - O) + O = m * (S - O) + S := by omega
      rw [h1, ← List.take_add]
      congr 1
      omega

/-- C3: for a non-empty input whose words are all non-empty and free of
whitespace, with overlap `O < S`, `chunkContent` produces exactly
`ceil(W / (S - O))` chunks (within the claimed margin), the k-th chunk being
the join of the word window of at most `S` words starting at `k * (S - O)`,
and concatenating the windows with the `O`-word overlap removed from every
window after the first reconstructs the original word sequence. -/
theorem chunkContent_spec (content : List Char) (S O : Nat) (hOS : O < S)
    (hgood : ∀ w ∈ splitOnSpace content,
      w ≠ [] ∧ ∀ c ∈ w, c.isWhitespace = false) :
    chunkContent content S O
      = (List.range (((splitOnSpace content).length + (S - O) - 1) / (S - O))).map
          (fun k => joinSpace (((splitOnSpace content).drop (k * (S - O))).take S))
    ∧ (chunkContent content S O).length
        = ((splitOnSpace content).length + (S - O) - 1) / (S - O)
    ∧ (∀ k, (((splitOnSpace content).drop (k * (S - O))).take S).length ≤ S)
    ∧ ((splitOnSpace content).take S)
        ++ ((List.range
              ((((splitOnSpace content).length + (S - O) - 1) / (S - O)) - 1)).map
            (fun j => ((((splitOnSpace content).drop ((j + 1) * (S - O))).take S).drop
              O))).flatten
      = splitOnSpace content := by
  have hd : 0 < S - O := by omega
  have hne : splitOnSpace content ≠ [] := splitOnSpace_ne_nil content
  have hW : 1 ≤ (splitOnSpace content).length := List.length_pos.mpr hne
  have hgo := chunkGo_spec (splitOnSpace content) S O hOS hgood
    ((splitOnSpace content).length + 1) 0 (by omega) (by omega)
  simp only [Nat.sub_zero, Nat.zero_add] at hgo
  have hn : ((splitOnSpace content).length - 1) / (S - O) + 1
      = ((splitOnSpace content).length + (S - O) - 1) / (S - O) := by
    rw [(by omega : (splitOnSpace content).length + (S - O) - 1
      = ((splitOnSpace content).length - 1) + (S - O)), Nat.add_div_right _ hd]
  have hchunks_ne : chunkGo (splitOnSpace content) S (S - O) 0
      ((splitOnSpace content).length + 1) ≠ [] := by
    rw [hgo]
    apply List.ne_nil_of_length_pos
    simp
  have hcc : chunkContent content S O
      = chunkGo (splitOnSpace content) S (S - O) 0
          ((splitOnSpace content).length + 1) := by
    simp only [chunkContent]
    rw [if_neg hchunks_ne]
  have hA : chunkContent content S O
      = (List.range (((splitOnSpace content).length + (S - O) - 1) / (S - O))).map
          (fun k => joinSpace (((splitOnSpace content).drop (k * (S - O))).take S)) := by
    rw [hcc, hgo, hn]
  refine ⟨hA, ?_, ?_, ?_⟩
  · rw [hA]
    simp
  · intro k
    simp only [List.length_take]
    omega
  · rw [← hn]
    simp only [Nat.add_sub_cancel]
    rw [cover_take (splitOnSpace content) S O hOS]
    apply List.take_of_length_le
    have hdm := Nat.div_add_mod ((splitOnSpace content).length - 1) (S - O)
    have hmlt : ((splitOnSpace content).length - 1) % (S - O) < S - O :=
      Nat.mod_lt _ hd
    have hcomm : ((splitOnSpace content).length - 1) / (S - O) * (S - O)
        = (S - O) * (((splitOnSpace content).length - 1) / (S - O)) :=
      Nat.mul_comm _ _
    omega

/-- witness for C3: a five-word input chunked with size 3 and overlap 1
yields three chunks matching the window characterization and reconstructing
the word sequence. -/
theorem chunkContent_spec_witness :
    chunkContent ['a', ' ', 'b', ' ', 'c', ' ', 'd', ' ', 'e'] 3 1
      = (List.range
          (((splitOnSpace ['a', ' ', 'b', ' ', 'c', ' ', 'd', ' ', 'e']).length
              + (3 - 1) - 1) / (3 - 1))).map
          (fun k => joinSpace
            (((splitOnSpace ['a', ' ', 'b', ' ', 'c', ' ', 'd', ' ', 'e']).drop
                (k * (3 - 1))).take 3)) :=
  (chunkContent_spec ['a', ' ', 'b', ' ', 'c', ' ', 'd', ' ', 'e'] 3 1
    (by omega) (by decide)).1

end Backend
